import Mathlib

/-!
# Verification of the Soccer-DB synchronization engine

A shallow embedding of the core of the Soccer-DB repository
(`src/main.py`, `src/upload/upload.py`, `src/clean/fbref_clean.py`,
`src/clean/fbref_clean_match_stats.py`, `src/clean/fbref_clean_player_matches.py`)
together with proofs and refutations of the frozen specification claims.

Conventions of the embedding:
* pandas DataFrames become Lean lists of rows; a row carries its primary-key
  value (an `Option String`, `none` standing for NaN / null) separately from
  the remaining cells, which are an association list from column name to an
  optional (nullable) string value;
* `drop_duplicates(subset=[pk])` (keep first) becomes `dropDuplicatesByKey`;
* `dropna(subset=[pk])` becomes `dropnaKey`;
* Python exceptions become `Except` values or explicit outcome flags; a
  `try/except` that merely logs becomes a `match` that discards the error;
* file and database I/O is replaced by explicit state passing: the SQLite
  table and the persisted `db_dict.json` bookkeeping index are arguments and
  results of the functions that read and write them.
-/

namespace SoccerDB

/-! ## Pandas-style list primitives

These model the small set of DataFrame operations the engine uses.
Key equality is `Option String` equality: pandas treats NaN as equal to NaN
both in `isin` and in `drop_duplicates`, which `none = none` mirrors.
-/

/-- Model of `df.dropna(subset=[pk])`: drop rows whose primary key is null. -/
def dropnaKey {α : Type} (pk : α → Option String) (t : List α) : List α :=
  t.filter (fun r => (pk r).isSome)

/-- Auxiliary recursion for `drop_duplicates` carrying the set of keys seen. -/
def dropDupAux {α : Type} (pk : α → Option String) (seen : List (Option String)) :
    List α → List α
  | [] => []
  | r :: rs =>
    if pk r ∈ seen then dropDupAux pk seen rs
    else r :: dropDupAux pk (pk r :: seen) rs

/-- Model of `df.drop_duplicates(subset=[pk])`: keep the first row for each
primary-key value. -/
def dropDuplicatesByKey {α : Type} (pk : α → Option String) (t : List α) : List α :=
  dropDupAux pk [] t

/-- The set (as a list) of key values seen after scanning `a`, starting from
`seen`; proof-support characterisation of the state of `dropDupAux`. -/
def seenAfter {α : Type} (pk : α → Option String) (seen : List (Option String))
    (a : List α) : List (Option String) :=
  a.foldl (fun s r => if pk r ∈ s then s else pk r :: s) seen

/-- Model of `df[df[col].isin(vals)]`. -/
def isinFilter {α : Type} (pk : α → Option String) (vals : List (Option String))
    (t : List α) : List α :=
  t.filter (fun r => pk r ∈ vals)

/-- Model of `df[~df[col].isin(vals)]`. -/
def notinFilter {α : Type} (pk : α → Option String) (vals : List (Option String))
    (t : List α) : List α :=
  t.filter (fun r => pk r ∉ vals)

/-! ## Incremental Upsert Engine — `FbrefClean.update_table`
(`src/clean/fbref_clean.py`, lines 267-303)

```python
table = self.db_table
if replace_vals:
    table = table[~table[self.primary_key].isin(new_cleaned_data[self.primary_key])]
              .reset_index(drop=True)
new_table = pd.concat([table, new_cleaned_data], axis=0).dropna(subset=[self.primary_key])
new_table = new_table.drop_duplicates(subset=[self.primary_key]).reset_index(drop=True)
```
`reset_index(drop=True)` has no content in the list model.  Note the
concatenation order: the existing table comes first, the new data second.
-/

/-- Model of `FbrefClean.update_table`. -/
def update_table {α : Type} (pk : α → Option String)
    (db_table new_cleaned_data : List α) (replace_vals : Bool) : List α :=
  let table := if replace_vals then
      notinFilter pk (new_cleaned_data.map pk) db_table
    else db_table
  dropDuplicatesByKey pk (dropnaKey pk (table ++ new_cleaned_data))

/-- A second definition following the specification's words for claim C4:
the same dedup pipeline but with the two row sets concatenated in
new-then-existing order ("`replace_existing=false` with new-then-existing
concatenation order").  To be compared with `update_table`, which is the
embedding of the source. -/
def update_table_specOrder {α : Type} (pk : α → Option String)
    (db_table new_cleaned_data : List α) (replace_vals : Bool) : List α :=
  let table := if replace_vals then
      notinFilter pk (new_cleaned_data.map pk) db_table
    else db_table
  dropDuplicatesByKey pk (dropnaKey pk (new_cleaned_data ++ table))

/-- Concrete row type for the upsert-conflict scenario of claim C4:
a primary-key cell and one value column `v`. -/
structure SRow where
  pkCell : Option String
  v : Int
  deriving DecidableEq, Repr

/-! ## Composite Key Deriver
(`src/clean/fbref_clean_player_matches.py`, lines 147, 153-154, 191)

```python
summary_df['tls_id']       = summary_df['tid'] + "_" + summary_df['ls_id']
summary_df['player_match'] = summary_df['pid'] + "_" + summary_df['match_id']
summary_df['team_match']   = summary_df['tid'] + "_" + summary_df['match_id']
stat_df['player_match']    = stat_df.pid + "_" + stat_df.match_id
```
The derivation is plain string concatenation with the fixed `"_"` separator
(the spec's `derive_key`).  The null case (a null constituent yields a null
key, later dropped by `dropna`) is outside claim C8, which quantifies over
identifier strings only.
-/

/-- Model of the composite key derivation: `id1 + "_" + id2`. -/
def derive_key (id1 id2 : String) : String :=
  id1 ++ "_" ++ id2

/-! ## Dependency-Ordered Orchestrator — `SoccerDBWorkflowController`
(`src/main.py`, lines 35-59)

```python
self.steps = [("seasons", ...), ("ls", ...), ("tls", ...), ("teams", ...),
              ("ptls", ...), ("players", ...), ("matches", ...),
              ("team_matches", ...), ("player_matches", ...), ("keeper_matches", ...)]

def run_workflow(self, start_from=None, additional_args={}):
    start_index = 0
    if start_from:
        start_index = next((index for index, (name, _, _) in enumerate(self.steps)
                            if name == start_from), 0)
    for name, func, args in self.steps[start_index:]:
        ...
```
-/

/-- The step names of `SoccerDBWorkflowController.steps`, in source order. -/
def workflowStepNames : List String :=
  ["seasons", "ls", "tls", "teams", "ptls", "players", "matches",
   "team_matches", "player_matches", "keeper_matches"]

/-- The order asserted by claim C9, translated to the repository's entity
names (league-seasons = `ls`, team-league-seasons = `tls`,
player-team-league-seasons = `ptls`, team-match-stats = `team_matches`,
player-match-stats = `player_matches`, keeper-match-stats =
`keeper_matches`).  Definition follows the claim's words, for comparison
with `workflowStepNames`. -/
def claimedStepNamesC9 : List String :=
  ["seasons", "leagues", "ls", "tls", "teams", "ptls", "players", "matches",
   "team_matches", "player_matches", "keeper_matches"]

/-- Model of the `start_index` computation in `run_workflow`.  `start_from`
is `Option String`; Python's `if start_from:` is falsy both for `None` and
for the empty string, and the generator expression `next((...), 0)` yields
the first matching index, defaulting to `0`. -/
def run_workflow_start_index (steps : List String) (start_from : Option String) : Nat :=
  match start_from with
  | none => 0
  | some s =>
    if s = "" then 0
    else match steps.findIdx? (fun name => name = s) with
      | some i => i
      | none => 0

/-- Model of the sequence of steps `run_workflow` executes: the slice
`self.steps[start_index:]`, in order. -/
def run_workflow_executed (steps : List String) (start_from : Option String) : List String :=
  steps.drop (run_workflow_start_index steps start_from)

/-! ## Bookkeeping Index and the upload path — `UploadSoccerDB`
(`src/upload/upload.py`) and `FbrefClean.update_db_dict`
(`src/clean/fbref_clean.py`, lines 305-333)

`config/db_dict.json` (the Bookkeeping Index) maps each entity name to
`{'update': <date>, 'ids': <list of primary-key values>}`.  A database row
is an association list from column name to nullable value; looking up a
column gives its (possibly null) value.
-/

/-- One Bookkeeping Index entry: last-update date and known primary keys. -/
structure DbEntry where
  upd : Option String
  ids : List (Option String)
  deriving DecidableEq

/-- The Bookkeeping Index (`db_dict.json`): entity name to entry. -/
def DbDict : Type := String → DbEntry

/-- A database/DataFrame row for the upload path: column name to nullable
scalar (scalars modeled as strings). -/
abbrev URow : Type := List (String × Option String)

/-- Cell access `row[col]`; a NaN cell and an absent column both read as
null (DataFrame columns are uniform, so the absent case does not arise on
well-formed inputs). -/
def cellGet (r : URow) (c : String) : Option String :=
  (r.lookup c).join

/-- `db_dict[name]['ids'] = ids` followed by `write_db_dict`: rewrite one
entry's id list, keeping its date. -/
def setIds (d : DbDict) (name : String) (ids : List (Option String)) : DbDict :=
  fun n => if n = name then DbEntry.mk (d name).upd ids else d n

/-- Model of `FbrefClean.update_db_dict`: sets both the `update` date and
the `ids` list of the entry from the updated production table passed in. -/
def fbref_update_db_dict {α : Type} (pkOf : α → Option String) (d : DbDict)
    (name : String) (new_table : List α) (last_date : String) : DbDict :=
  fun n => if n = name then DbEntry.mk (some last_date) (new_table.map pkOf) else d n

/-- Python's `needle.startswith`-shaped prefix test on character lists. -/
def listStartsWith : List Char → List Char → Bool
  | [], _ => true
  | _ :: _, [] => false
  | a :: as, b :: bs => a = b && listStartsWith as bs

/-- Model of Python's `needle in hay` substring containment. -/
def pySubstr (needle : List Char) : List Char → Bool
  | [] => needle.isEmpty
  | c :: t => listStartsWith needle (c :: t) || pySubstr needle t

/-- Model of the capture group of
`re.findall(r"FOREIGN\sKEY\s\((.+)\)\sREFERENCES", query_line)[0]`:
the text between the first `(` and the following `)`. -/
def fkRegexField (line : List Char) : List Char :=
  ((line.dropWhile (fun c => c ≠ '(')).drop 1).takeWhile (fun c => c ≠ ')')

/-- The scanner shared by `get_foreign_keys_from_query` and the intended
per-line reading: keep, from each iterated item containing
`"FOREIGN KEY"`, the regex capture group. -/
def scanForeignKeys (items : List (List Char)) : List (List Char) :=
  items.foldr
    (fun line acc =>
      if pySubstr ("FOREIGN KEY".data) line then fkRegexField line :: acc else acc)
    []

/-- Model of `UploadSoccerDB.get_foreign_keys_from_query`
(`src/upload/upload.py`, lines 397-410).  `self.create_table_query` is a
string (`"".join(create_table_queries_dict[self.name])`), so
`for query_line in self.create_table_query` iterates over its CHARACTERS:
each iterated item is a one-character string. -/
def get_foreign_keys_from_query (q : String) : List String :=
  (scanForeignKeys (q.data.map (fun c => [c]))).map (fun l => String.mk l)

/-- Modelled from the spec (claim C2's intended reading, and the method's
own docstring): the foreign keys declared in the create-table
configuration, read per LINE of the stored query.  For comparison with
`get_foreign_keys_from_query`. -/
def get_foreign_keys_from_lines (lines : List String) : List String :=
  (scanForeignKeys (lines.map String.data)).map (fun l => String.mk l)

/-- Model of `UploadSoccerDB.check_foreign_key_constraint`
(`src/upload/upload.py`, lines 378-395):
`data[data[foreign_key].isin(load_db_dict()[foreign_key]['ids'])]`. -/
def check_foreign_key_constraint (d : DbDict) (data : List URow)
    (foreign_key : String) : List URow :=
  data.filter (fun r => cellGet r foreign_key ∈ (d foreign_key).ids)

/-- Model of `UploadSoccerDB.convert_to_int` — `toNum` stands for the
cell-level `pd.to_numeric(..., errors='coerce').astype('Int64')` coercion,
left as a parameter because every call site receives an empty
`int_cols` list (see `get_int_columns_from_query`, which has the same
character-iteration shape as `get_foreign_keys_from_query`). -/
def convert_to_int (toNum : Option String → Option String) (data : List URow)
    (int_cols : List String) : List URow :=
  int_cols.foldl
    (fun d col =>
      d.map (fun r => r.map (fun p => if p.1 = col then (p.1, toNum p.2) else p)))
    data

/-- Model of `UploadSoccerDB.get_int_columns_from_query`
(`src/upload/upload.py`, lines 360-376): the same character-wise iteration
over the query string, collecting `strip().split(" ")[0]` of items
containing `"INT"`. -/
def get_int_columns_from_query (q : String) : List String :=
  ((q.data.map (fun c => [c])).foldr
    (fun line acc =>
      if pySubstr ("INT".data) line then
        ((line.dropWhile (fun c => c = ' ')).takeWhile (fun c => c ≠ ' ')) :: acc
      else acc)
    []).map (fun l => String.mk l)

/-- Model of `UploadSoccerDB.check_table_constraints`
(`src/upload/upload.py`, lines 313-338).  `db_table` is the current
contents of the production SQLite table (`self.load_table(self.name)`). -/
def check_table_constraints (toNum : Option String → Option String) (d : DbDict)
    (db_table : List URow) (pk : String) (q : String) (data : List URow) : List URow :=
  let data1 :=
    if db_table.length ≠ 0 then
      data.filter (fun r => cellGet r pk ∉ db_table.map (fun t => cellGet t pk))
    else data
  let fks := get_foreign_keys_from_query q
  let data2 := fks.foldl (fun dd k => check_foreign_key_constraint d dd k) data1
  convert_to_int toNum data2 (get_int_columns_from_query q)

/-- Model of `UploadSoccerDB.upload_to_db` (`src/upload/upload.py`, lines
191-232): chunked `to_sql(..., if_exists='append')` appends the rows; any
exception is caught and logged inside the method (`except Exception as e:
self.logger.error(...)`), so a store failure leaves the method returning
normally.  `store_fails` abstracts "some chunk raised"; the failing run is
modeled as committing nothing. -/
def upload_to_db (store_fails : Bool) (db_table data : List URow) : List URow :=
  if store_fails then db_table else db_table ++ data

/-- Model of `UploadSoccerDB.update_db_dict` (`src/upload/upload.py`, lines
412-444): rewrites the entry's `ids` with
`list(clean_data[self.primary_key])` — the primary keys of the batch's
cleaned rows — leaving the date untouched. -/
def upload_update_db_dict (d : DbDict) (name pk : String) (clean_data : List URow) : DbDict :=
  setIds d name (clean_data.map (fun r => cellGet r pk))

/-- Result of one `upload_clean_data` call: the production table contents,
the Bookkeeping Index, and the rows that passed the constraint check. -/
structure UploadResult where
  db : List URow
  dict : DbDict
  clean : List URow

/-- Model of `UploadSoccerDB.upload_clean_data` (`src/upload/upload.py`,
lines 68-93): constraint-check the batch, commit it to the store, then
update the Bookkeeping Index.  The method wraps nothing in `try`, but none
of the three calls lets an exception escape (the store commit catches
internally), so the call always returns normally. -/
def upload_clean_data (toNum : Option String → Option String) (store_fails : Bool)
    (d : DbDict) (db_table : List URow) (name pk : String) (q : String)
    (data : List URow) : UploadResult :=
  let clean := check_table_constraints toNum d db_table pk q data
  let db2 := upload_to_db store_fails db_table clean
  let d2 := upload_update_db_dict d name pk clean
  UploadResult.mk db2 d2 clean

/-! ## Entity step and step-failure model — `FbrefClean.clean_save_update_data`
(`src/clean/fbref_clean.py`, lines 62-127) and
`SoccerDBWorkflowController.run_workflow` (`src/main.py`, lines 48-59)

`clean_save_update_data` wraps its whole body in `try: ... except
Exception as e: self.logger.error(...)` and returns `None` on any
exception, including the two explicit `raise Exception(...)` statements
for the interactive cancellations.  `run_workflow` wraps each step
function in `try: func(*args); logger.info("Completed step")` /
`except: logger.error("Error in step")`.
-/

/-- The orchestrator-visible outcome of one entity step. -/
inductive StepOutcome where
  | completed
  | errored
  deriving DecidableEq

/-- `run_workflow`'s per-step `try/except`: a step is recorded completed
exactly when the step function returns without raising. -/
def run_step {ε α : Type} (f : Except ε α) : StepOutcome :=
  match f with
  | Except.ok _ => StepOutcome.completed
  | Except.error _ => StepOutcome.errored

/-- The body of `clean_save_update_data` inside its `try`, with the raise
points explicit: the two interactive confirmations raise when answered
"no"; on success the production table is updated (`update_table`) and the
Bookkeeping Index rewritten (`FbrefClean.update_db_dict`). -/
def clean_save_update_data_body {α : Type} (pkOf : α → Option String) (d : DbDict)
    (name : String) (db_table clean_data : List α) (last_date : String)
    (ok_clean ok_update : Bool) : Except String (List α × DbDict) :=
  if ok_clean = false then Except.error "cancelled by user" else
  -- backup_table writes a CSV backup; no modeled state changes
  if ok_update = false then Except.error "cancelled by user" else
  let new_table := update_table pkOf db_table clean_data false
  let d2 := fbref_update_db_dict pkOf d name new_table last_date
  Except.ok (new_table, d2)

/-- Model of `FbrefClean.clean_save_update_data`: the body runs under
`try/except`; any exception is logged and swallowed, and the method
returns `None` with the Bookkeeping Index left as it was. -/
def clean_save_update_data {α : Type} (pkOf : α → Option String) (d : DbDict)
    (name : String) (db_table clean_data : List α) (last_date : String)
    (ok_clean ok_update : Bool) : Option (List α) × DbDict :=
  match clean_save_update_data_body pkOf d name db_table clean_data last_date
      ok_clean ok_update with
  | Except.ok (t, d2) => (some t, d2)
  | Except.error _ => (none, d)

/-- Model of one entity step function of `src/main.py` (the shape shared by
`update_seasons` and the others): call the cleaner's
`clean_save_update_data`, then the uploader's `upload_clean_data`.  Both
calls swallow their internal exceptions, so the step body raises nothing
in the modeled region; the `Except` value records that no exception
escapes to `run_workflow`. -/
def update_entity_step {α : Type} (pkOf : α → Option String) (toNum : Option String → Option String)
    (d : DbDict) (name : String) (clean_db_table clean_data : List α)
    (last_date : String) (ok_clean ok_update : Bool) (store_fails : Bool)
    (sql_table : List URow) (pk : String) (q : String) (upload_data : List URow) :
    Except String (Option (List α) × UploadResult) :=
  let (cleaned, d1) := clean_save_update_data pkOf d name clean_db_table clean_data
      last_date ok_clean ok_update
  let ur := upload_clean_data toNum store_fails d1 sql_table name pk q upload_data
  Except.ok (cleaned, ur)

/-! ## Multi-Source Stat Reconciler —
`FbrefCleanMatchStats.concat_clean_save_all_match_stats`
(`src/clean/fbref_clean_match_stats.py`, lines 89-156)

A stat sub-table is a column list plus rows; each row carries its
composite-key cell (the `self.primary_key` column, e.g. `player_match`)
separately from the remaining cells.  `set_index`/`reset_index` moving the
key between index and column therefore have no content in the model; the
merges, all `on=self.primary_key`, match rows on the key field.

The review-column loop runs under `try: ... except: pass`: the first
missing column raises a `KeyError` (from `primary_stat_df[col]`,
`df_concat.loc[idx, col]` or `df_concat.drop(columns=[col])`) which
aborts the remaining iterations but keeps all state changes made so far,
and execution continues after the loop.
-/

/-- A row of a stat sub-table: composite-key cell plus named cells. -/
structure MRow where
  key : Option String
  cells : List (String × Option String)
  deriving DecidableEq

/-- A stat sub-table: its column names (other than the key column) and its
rows. -/
structure MTable where
  cols : List String
  rows : List MRow
  deriving DecidableEq

/-- Cell read: a NaN cell and an absent cell both read as null (DataFrame
rows are uniform over the column list). -/
def MRow.get (r : MRow) (c : String) : Option String :=
  (r.cells.lookup c).join

/-- Cell write (`df.loc[idx, col] = v` for one row): overwrite the existing
entry, or materialise the column on the row. -/
def MRow.setCell (r : MRow) (c : String) (v : Option String) : MRow :=
  if (r.cells.lookup c).isSome then
    MRow.mk r.key (r.cells.map (fun p => if p.1 = c then (p.1, v) else p))
  else
    MRow.mk r.key (r.cells ++ [(c, v)])

/-- Drop one named cell from a row (`df.drop(columns=[c])`, row level). -/
def MRow.dropCell (r : MRow) (c : String) : MRow :=
  MRow.mk r.key (r.cells.filter (fun p => p.1 ≠ c))

/-- `dropna(subset=[pk]).drop_duplicates(subset=[pk])` at table level
(lines 125-126 and 130-131). -/
def MTable.dedupKey (t : MTable) : MTable :=
  MTable.mk t.cols (dropDuplicatesByKey MRow.key (dropnaKey MRow.key t.rows))

/-- First row with the given key (row alignment of `.loc[key]`). -/
def findRowByKey (rows : List MRow) (k : Option String) : Option MRow :=
  rows.find? (fun r => r.key = k)

/-- The value `df.loc[k, c]` read from a table. -/
def concValueAt (t : MTable) (k : Option String) (c : String) : Option String :=
  match findRowByKey t.rows k with
  | some r => r.get c
  | none => none

/-- The overlapping (non-key) columns of two tables, which pandas `merge`
disambiguates with the `_x`/`_y` suffixes. -/
def sharedCols (l r : MTable) : List String :=
  l.cols.filter (fun c => c ∈ r.cols)

/-- Rename the cells of one merge side: overlapping names get the suffix. -/
def renameShared (shared : List String) (sfx : String)
    (cells : List (String × Option String)) : List (String × Option String) :=
  cells.map (fun p => if p.1 ∈ shared then (p.1 ++ sfx, p.2) else p)

/-- Rename one merge side's column list the same way. -/
def suffixCols (shared : List String) (sfx : String) (cols : List String) : List String :=
  cols.map (fun c => if c ∈ shared then c ++ sfx else c)

/-- Model of `left.merge(right, how='outer', on=self.primary_key)` (the
progressive combination of the secondary sub-tables, line 122): matched
key pairs are joined (duplicated keys fan out), unmatched left rows keep
null right cells, unmatched right rows are appended with null left
cells. -/
def outerMerge (l r : MTable) : MTable :=
  let shared := sharedCols l r
  let leftPart := l.rows.flatMap (fun lr =>
    let ms := r.rows.filter (fun rr => rr.key = lr.key)
    if ms.isEmpty then
      [MRow.mk lr.key (renameShared shared "_x" lr.cells ++
        r.cols.map (fun c => (if c ∈ shared then c ++ "_y" else c, (none : Option String))))]
    else
      ms.map (fun rr => MRow.mk lr.key
        (renameShared shared "_x" lr.cells ++ renameShared shared "_y" rr.cells)))
  let rightPart := (r.rows.filter (fun rr => ¬ l.rows.any (fun lr => lr.key = rr.key))).map
    (fun rr => MRow.mk rr.key
      (l.cols.map (fun c => (if c ∈ shared then c ++ "_x" else c, (none : Option String))) ++
        renameShared shared "_y" rr.cells))
  MTable.mk
    (suffixCols shared "_x" l.cols ++ suffixCols shared "_y" r.cols)
    (leftPart ++ rightPart)

/-- One output row of the left merge: the left row's cells (overlap
suffixed `_x`) followed by the matching right row's cells (overlap
suffixed `_y`), or null right cells when the key has no match. -/
def leftMergeRow (l t : MTable) (lr : MRow) : MRow :=
  match findRowByKey t.rows lr.key with
  | some rr => MRow.mk lr.key
      (renameShared (sharedCols l t) "_x" lr.cells ++
        renameShared (sharedCols l t) "_y" rr.cells)
  | none => MRow.mk lr.key
      (renameShared (sharedCols l t) "_x" lr.cells ++
        t.cols.map (fun c =>
          (if c ∈ sharedCols l t then c ++ "_y" else c, (none : Option String))))

/-- Model of `primary_stat_df.merge(df_concat, how='left',
on=self.primary_key)` (line 150).  At the call site the right table has
been deduplicated by key, so each left row has at most one match. -/
def leftMerge (l t : MTable) : MTable :=
  MTable.mk
    (suffixCols (sharedCols l t) "_x" l.cols ++ suffixCols (sharedCols l t) "_y" t.cols)
    (l.rows.map (leftMergeRow l t))

/-- The review-column fill loop (lines 134-143), with the `try/except:
pass` control flow explicit: a column missing from either side stops the
loop, keeping the state reached so far.  A processed column back-fills
only the null primary cells of keys present in `df_concat`, then is
dropped from `df_concat`. -/
def fillLoop : List String → MTable → MTable → MTable × MTable
  | [], prim, conc => (prim, conc)
  | c :: rest, prim, conc =>
    if c ∈ prim.cols then
      if c ∈ conc.cols then
        fillLoop rest
          (MTable.mk prim.cols
            (prim.rows.map (fun r =>
              if r.get c = none ∧ r.key ∈ conc.rows.map MRow.key then
                r.setCell c (concValueAt conc r.key c)
              else r)))
          (MTable.mk (conc.cols.filter (fun c2 => c2 ≠ c))
            (conc.rows.map (fun r => r.dropCell c)))
      else (prim, conc)
    else (prim, conc)

/-- One output row of the schema restriction: the selected columns read
from the source row (the key column lives in the `key` field). -/
def restrictRow (all_cols : List String) (pk_name : String) (r : MRow) : MRow :=
  MRow.mk r.key ((all_cols.filter (fun c => c ≠ pk_name)).map (fun c => (c, r.get c)))

/-- Model of `new_match_stats_clean[self.column_map['all_cols']]`
(line 151): restrict and reorder to the canonical output schema; a
requested column that is neither the key column nor present raises
`KeyError`. -/
def restrictCols (t : MTable) (all_cols : List String) (pk_name : String) :
    Except String MTable :=
  if all_cols.all (fun c => decide (c = pk_name) || decide (c ∈ t.cols)) then
    Except.ok (MTable.mk all_cols (t.rows.map (restrictRow all_cols pk_name)))
  else Except.error "KeyError"

/-- Model of `FbrefCleanMatchStats.concat_clean_save_all_match_stats`:
combine the secondary sub-tables by progressive outer merge, dedup both
sides by composite key, run the review-column fill loop, left-join the
filled primary with the remaining secondary columns, and restrict to the
canonical schema.  With no secondary sub-table the Python code leaves
`df_concat` unbound and raises `NameError` at line 125. -/
def concat_clean_save_all_match_stats (review_cols all_cols : List String)
    (pk_name : String) (primaryRaw : MTable) (secondaries : List MTable) :
    Except String MTable :=
  match secondaries with
  | [] => Except.error "NameError"
  | s0 :: rest =>
    let df_concat := (rest.foldl (fun acc d => outerMerge acc d) s0).dedupKey
    let prim := primaryRaw.dedupKey
    let pc := fillLoop review_cols prim df_concat
    restrictCols (leftMerge pc.1 pc.2) all_cols pk_name

/-! ## Theorems -/

section DedupLemmas

variable {α : Type} (pk : α → Option String)

/-- Membership in `seenAfter`: a key was seen after `a` iff it was already
seen or occurs among the keys of `a`. -/
theorem mem_seenAfter (a : List α) (seen : List (Option String)) (k : Option String) :
    k ∈ seenAfter pk seen a ↔ k ∈ seen ∨ k ∈ a.map pk := by
  induction a generalizing seen with
  | nil => simp [seenAfter]
  | cons r t ih =>
    show k ∈ seenAfter pk (if pk r ∈ seen then seen else pk r :: seen) t ↔ _
    by_cases h : pk r ∈ seen
    · simp only [h, if_true, ih]
      constructor
      · rintro (hs | ht)
        · exact Or.inl hs
        · exact Or.inr (by simpa using Or.inr ht)
      · rintro (hs | ht)
        · exact Or.inl hs
        · rcases (by simpa using ht : k = pk r ∨ k ∈ t.map pk) with hk | hk
          · exact Or.inl (hk ▸ h)
          · exact Or.inr hk
    · simp only [h, if_false, ih]
      constructor
      · rintro (hs | ht)
        · rcases List.mem_cons.mp hs with hk | hk
          · exact Or.inr (by simp [hk])
          · exact Or.inl hk
        · exact Or.inr (by simpa using Or.inr ht)
      · rintro (hs | ht)
        · exact Or.inl (List.mem_cons_of_mem _ hs)
        · rcases (by simpa using ht : k = pk r ∨ k ∈ t.map pk) with hk | hk
          · exact Or.inl (by simp [hk])
          · exact Or.inr hk

/-- `dropDupAux` distributes over append, threading the seen keys. -/
theorem dropDupAux_append (a b : List α) (seen : List (Option String)) :
    dropDupAux pk seen (a ++ b) =
      dropDupAux pk seen a ++ dropDupAux pk (seenAfter pk seen a) b := by
  induction a generalizing seen with
  | nil => simp [dropDupAux, seenAfter]
  | cons r t ih =>
    show dropDupAux pk seen (r :: (t ++ b)) = _
    by_cases h : pk r ∈ seen
    · simp only [dropDupAux, h, if_true]
      have hseen : seenAfter pk seen (r :: t) = seenAfter pk seen t := by
        simp [seenAfter, h]
      rw [ih, hseen]
    · simp only [dropDupAux, h, if_false]
      have hseen : seenAfter pk seen (r :: t) = seenAfter pk (pk r :: seen) t := by
        simp [seenAfter, h]
      rw [ih, hseen, List.cons_append]

/-- `dropDupAux` drops everything when every key has been seen. -/
theorem dropDupAux_eq_nil (b : List α) (seen : List (Option String))
    (h : ∀ r ∈ b, pk r ∈ seen) : dropDupAux pk seen b = [] := by
  induction b with
  | nil => rfl
  | cons r t ih =>
    have hr : pk r ∈ seen := h r (List.mem_cons_self r t)
    simp only [dropDupAux, hr, if_true]
    exact ih (fun x hx => h x (List.mem_cons_of_mem r hx))

/-- Rows surviving `dropDupAux` come from the input list. -/
theorem mem_of_mem_dropDupAux {r : α} (l : List α) (seen : List (Option String))
    (h : r ∈ dropDupAux pk seen l) : r ∈ l := by
  induction l generalizing seen with
  | nil => exact absurd h (List.not_mem_nil r)
  | cons a t ih =>
    by_cases ha : pk a ∈ seen
    · simp only [dropDupAux, ha, if_true] at h
      exact List.mem_cons_of_mem a (ih _ h)
    · simp only [dropDupAux, ha, if_false] at h
      rcases List.mem_cons.mp h with hr | hr
      · exact hr ▸ List.mem_cons_self a t
      · exact List.mem_cons_of_mem a (ih _ hr)

/-- Every input key is either already seen or survives into the output. -/
theorem mem_map_dropDupAux (l : List α) (seen : List (Option String))
    {k : Option String} (h : k ∈ l.map pk) :
    k ∈ seen ∨ k ∈ (dropDupAux pk seen l).map pk := by
  induction l generalizing seen with
  | nil => simp at h
  | cons a t ih =>
    rcases (by simpa using h : k = pk a ∨ k ∈ t.map pk) with hk | hk
    · by_cases ha : pk a ∈ seen
      · exact Or.inl (hk ▸ ha)
      · simp only [dropDupAux, ha, if_false]
        exact Or.inr (by simp [hk])
    · by_cases ha : pk a ∈ seen
      · simpa only [dropDupAux, ha, if_true] using ih _ hk
      · simp only [dropDupAux, ha, if_false]
        rcases ih (pk a :: seen) hk with hs | hs
        · rcases List.mem_cons.mp hs with h1 | h1
          · exact Or.inr (by simp [h1])
          · exact Or.inl h1
        · exact Or.inr (by simp [hs])

/-- The output of `dropDupAux` has pairwise-distinct keys, none of them in
`seen`. -/
theorem dropDupAux_nodup_keys (l : List α) (seen : List (Option String)) :
    ((dropDupAux pk seen l).map pk).Nodup ∧
      ∀ r ∈ dropDupAux pk seen l, pk r ∉ seen := by
  induction l generalizing seen with
  | nil => simp [dropDupAux]
  | cons a t ih =>
    by_cases ha : pk a ∈ seen
    · simpa only [dropDupAux, ha, if_true] using ih seen
    · simp only [dropDupAux, ha, if_false]
      obtain ⟨hnd, hout⟩ := ih (pk a :: seen)
      refine ⟨?_, ?_⟩
      · simp only [List.map_cons, List.nodup_cons]
        refine ⟨?_, hnd⟩
        intro hmem
        rcases List.mem_map.mp hmem with ⟨r, hr, hpk⟩
        exact (hout r hr) (by simp [hpk])
      · intro r hr
        rcases List.mem_cons.mp hr with h1 | h1
        · exact h1 ▸ ha
        · intro hc
          exact (hout r h1) (List.mem_cons_of_mem _ hc)

/-- `dropDupAux` is the identity on lists whose keys are pairwise distinct
and disjoint from `seen`. -/
theorem dropDupAux_eq_self (l : List α) (seen : List (Option String))
    (h1 : (l.map pk).Nodup) (h2 : ∀ r ∈ l, pk r ∉ seen) :
    dropDupAux pk seen l = l := by
  induction l generalizing seen with
  | nil => rfl
  | cons a t ih =>
    have ha : pk a ∉ seen := h2 a (List.mem_cons_self a t)
    simp only [dropDupAux, ha, if_false]
    congr 1
    refine ih _ (by simpa using h1.of_cons) ?_
    intro r hr
    intro hc
    rcases List.mem_cons.mp hc with h3 | h3
    · have hmap : (pk a :: t.map pk).Nodup := by simpa using h1
      exact (List.nodup_cons.mp hmap).1 (h3 ▸ List.mem_map_of_mem pk hr)
    · exact h2 r (List.mem_cons_of_mem a hr) h3

/-- `dropDupAux` only depends on the seen keys up to membership. -/
theorem dropDupAux_congr_seen (l : List α) (seen1 seen2 : List (Option String))
    (h : ∀ k, k ∈ seen1 ↔ k ∈ seen2) :
    dropDupAux pk seen1 l = dropDupAux pk seen2 l := by
  induction l generalizing seen1 seen2 with
  | nil => rfl
  | cons a t ih =>
    by_cases ha : pk a ∈ seen1
    · simp only [dropDupAux, ha, if_true, (h (pk a)).mp ha]
      exact ih _ _ h
    · have ha2 : pk a ∉ seen2 := fun hc => ha ((h (pk a)).mpr hc)
      simp only [dropDupAux, ha, ha2, if_false]
      congr 1
      refine ih _ _ ?_
      intro k
      simp only [List.mem_cons]
      exact or_congr Iff.rfl (h k)

end DedupLemmas

section UpsertLemmas

variable {α : Type} (pk : α → Option String)

/-- `dropnaKey` distributes over append. -/
theorem dropnaKey_append (a b : List α) :
    dropnaKey pk (a ++ b) = dropnaKey pk a ++ dropnaKey pk b := by
  simp [dropnaKey]

/-- `dropnaKey` is the identity on lists with no null keys. -/
theorem dropnaKey_eq_self (l : List α) (h : ∀ r ∈ l, (pk r).isSome) :
    dropnaKey pk l = l := by
  unfold dropnaKey
  rw [List.filter_eq_self]
  exact h

/-- Rows surviving `dropnaKey` have non-null keys. -/
theorem isSome_of_mem_dropnaKey {r : α} (l : List α) (h : r ∈ dropnaKey pk l) :
    (pk r).isSome := by
  unfold dropnaKey at h
  exact (List.mem_filter.mp h).2

/-- Rows surviving `notinFilter` have keys outside the filtered set. -/
theorem not_mem_of_mem_notinFilter {r : α} (vals : List (Option String)) (l : List α)
    (h : r ∈ notinFilter pk vals l) : pk r ∉ vals := by
  have := List.of_mem_filter h
  simpa using this

/-- C7: the upsert is idempotent over a batch — applying `update_table`
with the same new-row set and the same replace flag twice in succession
yields the same table as applying it once, for every starting production
table and every new-row set. -/
theorem C7_update_table_idempotent (db new : List α) (b : Bool) :
    update_table pk (update_table pk db new b) new b = update_table pk db new b := by
  cases b with
  | false =>
    show dropDuplicatesByKey pk (dropnaKey pk
        (dropDuplicatesByKey pk (dropnaKey pk (db ++ new)) ++ new)) =
      dropDuplicatesByKey pk (dropnaKey pk (db ++ new))
    set T1 := dropDuplicatesByKey pk (dropnaKey pk (db ++ new)) with hT1
    have hsub : ∀ r ∈ T1, r ∈ dropnaKey pk (db ++ new) := by
      intro r hr
      exact mem_of_mem_dropDupAux pk _ [] hr
    have hsome : ∀ r ∈ T1, (pk r).isSome := by
      intro r hr
      exact isSome_of_mem_dropnaKey pk _ (hsub r hr)
    rw [dropnaKey_append, dropnaKey_eq_self pk T1 hsome]
    show dropDupAux pk [] (T1 ++ dropnaKey pk new) = T1
    rw [dropDupAux_append]
    have hself : dropDupAux pk [] T1 = T1 := by
      refine dropDupAux_eq_self pk T1 [] ?_ (by simp)
      exact (dropDupAux_nodup_keys pk (dropnaKey pk (db ++ new)) []).1
    have hnil : dropDupAux pk (seenAfter pk [] T1) (dropnaKey pk new) = [] := by
      refine dropDupAux_eq_nil pk _ _ ?_
      intro r hr
      rw [mem_seenAfter]
      right
      have hmemnew : r ∈ dropnaKey pk (db ++ new) := by
        rw [dropnaKey_append]
        exact List.mem_append_right _ hr
      have := mem_map_dropDupAux pk (dropnaKey pk (db ++ new)) []
        (List.mem_map_of_mem pk hmemnew)
      simpa using this
    rw [hself, hnil, List.append_nil]
  | true =>
    show dropDuplicatesByKey pk (dropnaKey pk
        (notinFilter pk (new.map pk) (update_table pk db new true) ++ new)) =
      update_table pk db new true
    have hexp : update_table pk db new true =
        dropDupAux pk [] (dropnaKey pk (notinFilter pk (new.map pk) db) ++
          dropnaKey pk new) := by
      show dropDuplicatesByKey pk (dropnaKey pk
          (notinFilter pk (new.map pk) db ++ new)) = _
      rw [dropnaKey_append]
      rfl
    set A := dropnaKey pk (notinFilter pk (new.map pk) db) with hA
    set B := dropnaKey pk new with hB
    have hAkeys : ∀ r ∈ A, pk r ∉ new.map pk := by
      intro r hr
      have hrF : r ∈ notinFilter pk (new.map pk) db := List.mem_of_mem_filter hr
      exact not_mem_of_mem_notinFilter pk _ _ hrF
    have hBkeys : ∀ r ∈ B, pk r ∈ new.map pk := by
      intro r hr
      exact List.mem_map_of_mem pk (List.mem_of_mem_filter hr)
    set DA := dropDupAux pk [] A with hDA
    set DB2 := dropDupAux pk (seenAfter pk [] A) B with hDB2
    have hsplit : update_table pk db new true = DA ++ DB2 := by
      rw [hexp, dropDupAux_append]
    rw [hsplit]
    -- the second-pass pre-filter keeps exactly DA
    have hDAsubA : ∀ r ∈ DA, r ∈ A := by
      intro r hr
      exact mem_of_mem_dropDupAux pk _ [] hr
    have hDB2subB : ∀ r ∈ DB2, r ∈ B := by
      intro r hr
      exact mem_of_mem_dropDupAux pk _ _ hr
    have hfilt : notinFilter pk (new.map pk) (DA ++ DB2) = DA := by
      unfold notinFilter
      rw [List.filter_append]
      have h1 : DA.filter (fun r => pk r ∉ new.map pk) = DA := by
        rw [List.filter_eq_self]
        intro r hr
        simpa using hAkeys r (hDAsubA r hr)
      have h2 : DB2.filter (fun r => pk r ∉ new.map pk) = [] := by
        rw [List.filter_eq_nil_iff]
        intro r hr
        simpa using hBkeys r (hDB2subB r hr)
      rw [h1, h2, List.append_nil]
    rw [hfilt, dropnaKey_append]
    have hDAsome : dropnaKey pk DA = DA := by
      refine dropnaKey_eq_self pk DA ?_
      intro r hr
      exact isSome_of_mem_dropnaKey pk _ (hDAsubA r hr)
    rw [hDAsome]
    show dropDupAux pk [] (DA ++ dropnaKey pk new) = DA ++ DB2
    rw [dropDupAux_append]
    have hDAself : dropDupAux pk [] DA = DA := by
      refine dropDupAux_eq_self pk DA [] ?_ (by simp)
      exact (dropDupAux_nodup_keys pk A []).1
    have hcongr : dropDupAux pk (seenAfter pk [] DA) (dropnaKey pk new) = DB2 := by
      rw [hDB2]
      refine dropDupAux_congr_seen pk _ _ _ ?_
      intro k
      rw [mem_seenAfter, mem_seenAfter]
      simp only [List.not_mem_nil, false_or]
      constructor
      · intro hk
        rcases List.mem_map.mp hk with ⟨r, hr, hpk⟩
        exact hpk ▸ List.mem_map_of_mem pk (hDAsubA r hr)
      · intro hk
        have := mem_map_dropDupAux pk A [] hk
        simpa using this
    rw [hDAself, hcongr]

end UpsertLemmas

section KeyLemmas

/-- `takeWhile` consumes a prefix on which the predicate holds and stops at
the first failing element. -/
theorem takeWhile_append_stop (p : Char → Bool) (l1 l2 : List Char) (x : Char)
    (h : ∀ c ∈ l1, p c = true) (hx : p x = false) :
    (l1 ++ x :: l2).takeWhile p = l1 := by
  induction l1 with
  | nil => simp [List.takeWhile, hx]
  | cons a t ih =>
    have ha : p a = true := h a (List.mem_cons_self a t)
    simp only [List.cons_append, List.takeWhile, ha]
    have := ih (fun c hc => h c (List.mem_cons_of_mem a hc))
    rw [show t.append (x :: l2) = t ++ x :: l2 from rfl, this]

/-- C8 (counterexample): composite-key derivation is not order-sensitive for
all distinct strings — when a constituent contains the separator, swapping
the arguments can produce the same key: `derive_key "x_x" "x"` and
`derive_key "x" "x_x"` are both `"x_x_x"`. -/
theorem C8_counterexample :
    derive_key "x_x" "x" = derive_key "x" "x_x" ∧ ("x_x" : String) ≠ "x" := by
  exact ⟨rfl, by decide⟩

/-- C8 (amended): composite key derivation (concatenation with the `"_"`
separator) is deterministic — the same ordered pair of identifier strings
always yields the same key string — and is order-sensitive for identifiers
that do not themselves contain the separator character: for all such `a`
and `b` with `a ≠ b`, `derive_key a b ≠ derive_key b a`. -/
theorem C8_amended_derive_key (a b : String)
    (ha : '_' ∉ a.data) (hb : '_' ∉ b.data) (hne : a ≠ b) :
    (∀ a2 b2 : String, a2 = a → b2 = b → derive_key a2 b2 = derive_key a b) ∧
    derive_key a b ≠ derive_key b a := by
  refine ⟨fun a2 b2 h2 h3 => by rw [h2, h3], ?_⟩
  intro h
  apply hne
  have hdata : a.data ++ '_' :: b.data = b.data ++ '_' :: a.data := by
    have hcong := congrArg String.data h
    simpa [derive_key, String.data_append] using hcong
  have hpa : ∀ c ∈ a.data, (decide (c ≠ '_')) = true := by
    intro c hc
    simp only [decide_eq_true_iff]
    exact fun hcu => ha (hcu ▸ hc)
  have hpb : ∀ c ∈ b.data, (decide (c ≠ '_')) = true := by
    intro c hc
    simp only [decide_eq_true_iff]
    exact fun hcu => hb (hcu ▸ hc)
  have hu : (decide (('_' : Char) ≠ '_')) = false := by decide
  have h1 : (a.data ++ '_' :: b.data).takeWhile (fun c => decide (c ≠ '_')) = a.data :=
    takeWhile_append_stop _ _ _ _ hpa hu
  have h2 : (b.data ++ '_' :: a.data).takeWhile (fun c => decide (c ≠ '_')) = b.data :=
    takeWhile_append_stop _ _ _ _ hpb hu
  apply String.ext
  rw [← h1, hdata, h2]

/-- Witness for C8 (amended) at the underscore-free pair `("a", "b")`. -/
theorem C8_amended_derive_key_witness :
    (∀ a2 b2 : String, a2 = "a" → b2 = "b" → derive_key a2 b2 = derive_key "a" "b") ∧
    derive_key "a" "b" ≠ derive_key "b" "a" :=
  C8_amended_derive_key "a" "b" (by decide) (by decide) (by decide)

end KeyLemmas

section UploadLemmas

/-- A prefix match bounds the needle's length by the haystack's. -/
theorem listStartsWith_le (n : List Char) :
    ∀ l : List Char, listStartsWith n l = true → n.length ≤ l.length := by
  induction n with
  | nil => intro l _; simp
  | cons a t ih =>
    intro l h
    cases l with
    | nil => simp [listStartsWith] at h
    | cons b bs =>
      simp only [listStartsWith, Bool.and_eq_true] at h
      simpa using ih bs h.2

/-- Containment bounds the needle's length by the haystack's. -/
theorem pySubstr_le (n : List Char) :
    ∀ h : List Char, pySubstr n h = true → n.length ≤ h.length := by
  intro h
  induction h with
  | nil =>
    intro hp
    unfold pySubstr at hp
    simp only [List.isEmpty_iff] at hp
    simp [hp]
  | cons c t ih =>
    intro hp
    unfold pySubstr at hp
    cases h1 : listStartsWith n (c :: t) with
    | true => exact listStartsWith_le n _ h1
    | false =>
      rw [h1, Bool.false_or] at hp
      exact le_trans (ih hp) (by simp)

/-- A needle of length at least two is never contained in a one-character
string — the core of the `for query_line in <string>` iteration bug. -/
theorem pySubstr_singleton_false (n : List Char) (c : Char) (hn : 2 ≤ n.length) :
    pySubstr n [c] = false := by
  cases he : pySubstr n [c] with
  | false => rfl
  | true =>
    have hle := pySubstr_le n [c] he
    simp only [List.length_cons, List.length_nil] at hle
    omega

/-- `UploadSoccerDB.get_foreign_keys_from_query` returns the empty list on
EVERY query string: it iterates the characters of the joined query, and no
one-character string contains `"FOREIGN KEY"`. -/
theorem get_foreign_keys_from_query_eq_nil (q : String) :
    get_foreign_keys_from_query q = [] := by
  unfold get_foreign_keys_from_query
  have h : ∀ cs : List Char, scanForeignKeys (cs.map (fun c => [c])) = [] := by
    intro cs
    induction cs with
    | nil => rfl
    | cons c t ih =>
      show scanForeignKeys ([c] :: t.map (fun c => [c])) = []
      unfold scanForeignKeys
      simp only [List.foldr_cons]
      rw [pySubstr_singleton_false ("FOREIGN KEY".data) c (by decide)]
      simpa [scanForeignKeys] using ih
  rw [h]
  rfl

/-- Likewise `get_int_columns_from_query` always returns the empty list. -/
theorem get_int_columns_from_query_eq_nil (q : String) :
    get_int_columns_from_query q = [] := by
  unfold get_int_columns_from_query
  have h : ∀ cs : List Char,
      (cs.map (fun c => [c])).foldr
        (fun line acc =>
          if pySubstr ("INT".data) line then
            ((line.dropWhile (fun c => c = ' ')).takeWhile (fun c => c ≠ ' ')) :: acc
          else acc)
        [] = [] := by
    intro cs
    induction cs with
    | nil => rfl
    | cons c t ih =>
      simp only [List.map_cons, List.foldr_cons]
      rw [pySubstr_singleton_false ("INT".data) c (by decide)]
      simpa using ih
  rw [h]
  rfl

/-- The effective content of `check_table_constraints`: with the foreign-key
list and the integer-column list both empty, only the duplicate-primary-key
filter remains. -/
theorem check_table_constraints_eq (toNum : Option String → Option String)
    (d : DbDict) (db_table : List URow) (pk : String) (q : String) (data : List URow) :
    check_table_constraints toNum d db_table pk q data =
      if db_table.length ≠ 0 then
        data.filter (fun r => cellGet r pk ∉ db_table.map (fun t => cellGet t pk))
      else data := by
  unfold check_table_constraints
  rw [get_foreign_keys_from_query_eq_nil, get_int_columns_from_query_eq_nil]
  rfl

end UploadLemmas

/-- C2 (failing input): a create-table configuration declaring
`FOREIGN KEY (tid) REFERENCES teams (tid)` — read per line, the declared
foreign keys are `["tid"]` — joined into the query string the class
actually stores; the candidate row has `tid = "bogus"`, which is not in
the Bookkeeping Index's ids for `tid` (empty here).  The constraint check
nevertheless returns the row unfiltered, because the character-wise
iteration finds no foreign keys. -/
theorem C2_fk_gate_bypassed :
    get_foreign_keys_from_lines
      ["CREATE TABLE matches (", " tid TEXT,",
       " FOREIGN KEY (tid) REFERENCES teams (tid)", ")"] = ["tid"] ∧
    get_foreign_keys_from_query
      (String.join
        ["CREATE TABLE matches (", " tid TEXT,",
         " FOREIGN KEY (tid) REFERENCES teams (tid)", ")"]) = [] ∧
    check_table_constraints id (fun _ => DbEntry.mk none []) [] "match_id"
      (String.join
        ["CREATE TABLE matches (", " tid TEXT,",
         " FOREIGN KEY (tid) REFERENCES teams (tid)", ")"])
      [[("match_id", some "m1"), ("tid", some "bogus")]] =
      [[("match_id", some "m1"), ("tid", some "bogus")]] ∧
    cellGet [("match_id", some "m1"), ("tid", some "bogus")] "tid" ∉
      ((fun (_ : String) => DbEntry.mk none []) "tid").ids := by
  refine ⟨by decide, get_foreign_keys_from_query_eq_nil _, ?_, by decide⟩
  rw [check_table_constraints_eq]
  decide

/-- C1 (failing input): the production `seasons` table already holds key
`"A"`; the batch adds key `"B"`.  After the successful upsert-and-commit,
the Bookkeeping Index entry holds only `["B"]` — the keys added by this
batch — even though the production table now holds both `"A"` and `"B"`. -/
theorem C1_index_rewritten_with_delta_only :
    ((upload_clean_data id false
        (fun n => if n = "seasons" then DbEntry.mk (some "2024-01-01") [some "A"]
                  else DbEntry.mk none [])
        [[("sid", some "A")]] "seasons" "sid" ""
        [[("sid", some "A")], [("sid", some "B")]]).dict "seasons").ids
      = [some "B"] ∧
    some "A" ∈
      (upload_clean_data id false
        (fun n => if n = "seasons" then DbEntry.mk (some "2024-01-01") [some "A"]
                  else DbEntry.mk none [])
        [[("sid", some "A")]] "seasons" "sid" ""
        [[("sid", some "A")], [("sid", some "B")]]).db.map
        (fun r => cellGet r "sid") ∧
    some "A" ∉
      ((upload_clean_data id false
        (fun n => if n = "seasons" then DbEntry.mk (some "2024-01-01") [some "A"]
                  else DbEntry.mk none [])
        [[("sid", some "A")]] "seasons" "sid" ""
        [[("sid", some "A")], [("sid", some "B")]]).dict "seasons").ids := by
  refine ⟨?_, ?_, ?_⟩ <;>
    · simp only [upload_clean_data, check_table_constraints_eq]
      decide

/-- C3 (counterexample): a failing store commit (`store_fails = true`) on
the same scenario: the exception is swallowed inside `upload_to_db`, the
production table is left unchanged, yet the Bookkeeping Index entry IS
rewritten (to the batch keys), and the surrounding entity step is recorded
completed by the orchestrator. -/
theorem C3_counterexample :
    ((upload_clean_data id true
        (fun n => if n = "seasons" then DbEntry.mk (some "2024-01-01") [some "A"]
                  else DbEntry.mk none [])
        [[("sid", some "A")]] "seasons" "sid" ""
        [[("sid", some "A")], [("sid", some "B")]]).dict "seasons").ids
      ≠ [some "A"] ∧
    (upload_clean_data id true
        (fun n => if n = "seasons" then DbEntry.mk (some "2024-01-01") [some "A"]
                  else DbEntry.mk none [])
        [[("sid", some "A")]] "seasons" "sid" ""
        [[("sid", some "A")], [("sid", some "B")]]).db = [[("sid", some "A")]] ∧
    run_step (update_entity_step SRow.pkCell id
        (fun n => if n = "seasons" then DbEntry.mk (some "2024-01-01") [some "A"]
                  else DbEntry.mk none [])
        "seasons" [] [] "2024-07-01" true true true
        [[("sid", some "A")]] "sid" ""
        [[("sid", some "A")], [("sid", some "B")]]) = StepOutcome.completed := by
  refine ⟨?_, ?_, rfl⟩ <;>
    · simp only [upload_clean_data, check_table_constraints_eq]
      decide

/-- C3 (amended): when the store commit fails, the exception is caught and
logged inside `upload_to_db`; the production table is left unchanged, but
the method returns normally — the entity step is still recorded completed
and the Bookkeeping Index entry for the entity is nevertheless rewritten
with the batch's cleaned keys (it is NOT left as it was). -/
theorem C3_amended_store_failure (toNum : Option String → Option String)
    (d : DbDict) (db_table : List URow) (name pk q : String) (data : List URow)
    (cdb cdata : List SRow) (ldate : String) (okc oku : Bool) :
    (upload_clean_data toNum true d db_table name pk q data).db = db_table ∧
    ((upload_clean_data toNum true d db_table name pk q data).dict name).ids =
      (check_table_constraints toNum d db_table pk q data).map
        (fun r => cellGet r pk) ∧
    run_step (update_entity_step SRow.pkCell toNum d name cdb cdata ldate okc oku
        true db_table pk q data) = StepOutcome.completed := by
  refine ⟨rfl, ?_, ?_⟩
  · simp [upload_clean_data, upload_update_db_dict, setIds]
  · unfold update_entity_step
    rfl

/-- C5 (counterexample): the operator answers "no" at the first
confirmation, so `clean_save_update_data`'s body raises
`Exception("... cancelled by user")`; the method's own `except` swallows
it and returns `None`, the step function returns normally, and
`run_workflow` records the step as completed. -/
theorem C5_step_error_recorded_completed :
    clean_save_update_data_body SRow.pkCell (fun _ => DbEntry.mk none [])
        "seasons" [] [] "2024-07-01" false true =
      Except.error "cancelled by user" ∧
    (clean_save_update_data SRow.pkCell (fun _ => DbEntry.mk none [])
        "seasons" [] [] "2024-07-01" false true).1 = none ∧
    run_step (update_entity_step SRow.pkCell id (fun _ => DbEntry.mk none [])
        "seasons" [] [] "2024-07-01" false true false [] "sid" "" []) =
      StepOutcome.completed :=
  ⟨rfl, rfl, rfl⟩

/-- Helper: `findIdx?` returns `none` when the sought name is absent. -/
theorem findIdx_eq_none_of_not_mem (l : List String) (s : String) (h : s ∉ l) :
    l.findIdx? (fun name => name = s) = none := by
  induction l with
  | nil => rfl
  | cons a t ih =>
    have ha : a ≠ s := fun hc => h (hc ▸ List.mem_cons_self a t)
    have ht : s ∉ t := fun hc => h (List.mem_cons_of_mem a hc)
    simp [List.findIdx?_cons, ha, ih ht]

/-- C9 (counterexample): the orchestrator's step list is not the
eleven-step sequence asserted by the claim; in particular there is no
`leagues` step at all. -/
theorem C9_counterexample :
    workflowStepNames ≠ claimedStepNamesC9 ∧ "leagues" ∉ workflowStepNames := by
  decide

/-- C9 (amended): the orchestrator runs one step per entity in exactly the
fixed order seasons, league-seasons, team-league-seasons, teams,
player-team-league-seasons, players, matches, team-match-stats,
player-match-stats, keeper-match-stats — with each listed step scheduled
before all later ones, and no separate leagues step: a full run executes
precisely this list in this order. -/
theorem C9_amended_order :
    workflowStepNames =
      ["seasons", "ls", "tls", "teams", "ptls", "players", "matches",
       "team_matches", "player_matches", "keeper_matches"] ∧
    run_workflow_executed workflowStepNames none = workflowStepNames ∧
    "leagues" ∉ workflowStepNames := by
  decide

/-- C10: calling `run_workflow` with a `start_from` name that matches no
step name silently defaults the resume index to 0 and runs the entire
workflow from the first step. -/
theorem C10_unknown_start_from_runs_all (s : String) (h : s ∉ workflowStepNames) :
    run_workflow_start_index workflowStepNames (some s) = 0 ∧
    run_workflow_executed workflowStepNames (some s) = workflowStepNames := by
  have hidx : run_workflow_start_index workflowStepNames (some s) = 0 := by
    unfold run_workflow_start_index
    by_cases he : s = ""
    · simp [he]
    · simp [he, findIdx_eq_none_of_not_mem workflowStepNames s h]
  exact ⟨hidx, by simp [run_workflow_executed, hidx]⟩

/-- Witness for C10 at the concrete unknown name `"bogus"`. -/
theorem C10_unknown_start_from_runs_all_witness :
    run_workflow_start_index workflowStepNames (some "bogus") = 0 ∧
    run_workflow_executed workflowStepNames (some "bogus") = workflowStepNames :=
  C10_unknown_start_from_runs_all "bogus" (by decide)

/-- C4 (counterexample): on production row `{pk:"X", v:1}` and new row
`{pk:"X", v:2}` with `replace_vals=false`, the source's `update_table`
(existing-then-new concatenation) does not agree with the claim's
new-then-existing pipeline: the claimed order with first-occurrence dedup
would keep `v=2`, while the code keeps `v=1`.  The claim's description of
the concatenation order is therefore false of the code. -/
theorem C4_counterexample :
    update_table SRow.pkCell [⟨some "X", 1⟩] [⟨some "X", 2⟩] false = [⟨some "X", 1⟩] ∧
    update_table_specOrder SRow.pkCell [⟨some "X", 1⟩] [⟨some "X", 2⟩] false
      = [⟨some "X", 2⟩] ∧
    update_table SRow.pkCell [⟨some "X", 1⟩] [⟨some "X", 2⟩] false ≠
      update_table_specOrder SRow.pkCell [⟨some "X", 1⟩] [⟨some "X", 2⟩] false := by
  decide

/-- C4 (amended): with `replace_existing=true` the merged result holds
`v=2`; with `replace_existing=false` the two row sets are concatenated in
existing-then-new order, rows with a null primary key are dropped,
deduplication keeps the first occurrence after concatenation, and the
result holds `v=1`.  The third conjunct exercises the null-key drop and
the first-occurrence tie-break on the same scenario extended by a
null-keyed new row. -/
theorem C4_amended_conflict_policy :
    update_table SRow.pkCell [⟨some "X", 1⟩] [⟨some "X", 2⟩] true = [⟨some "X", 2⟩] ∧
    update_table SRow.pkCell [⟨some "X", 1⟩] [⟨some "X", 2⟩] false = [⟨some "X", 1⟩] ∧
    update_table SRow.pkCell [⟨some "X", 1⟩] [⟨none, 7⟩, ⟨some "X", 2⟩] false
      = [⟨some "X", 1⟩] := by
  decide

section ReconcilerLemmas

/-- Unfolding of association-list lookup at a cons cell. -/
theorem lookup_cons_char {β : Type} (k a : String) (b : β) (t : List (String × β)) :
    ((k, b) :: t).lookup a = if a = k then some b else t.lookup a := by
  by_cases h : a = k
  · simp [List.lookup, h]
  · have hbeq : (a == k) = false := by
      simp [h]
    simp [List.lookup, hbeq, h]

/-- Lookup distributes over append, preferring the left list. -/
theorem lookup_append_assoc {β : Type} (l1 l2 : List (String × β)) (a : String) :
    (l1 ++ l2).lookup a =
      match l1.lookup a with
      | some v => some v
      | none => l2.lookup a := by
  induction l1 with
  | nil => simp
  | cons p t ih =>
    rcases p with ⟨k, b⟩
    rw [List.cons_append, lookup_cons_char, lookup_cons_char]
    by_cases h : a = k
    · simp [h]
    · simp only [if_neg h]
      exact ih

/-- Writing one column leaves every other column's read unchanged. -/
theorem setCell_get_other (r : MRow) (c2 c : String) (v2 : Option String)
    (h : c2 ≠ c) : (r.setCell c2 v2).get c = r.get c := by
  unfold MRow.setCell MRow.get
  by_cases hl : (r.cells.lookup c2).isSome
  · rw [if_pos hl]
    have hmap : ∀ cells : List (String × Option String),
        (cells.map (fun p => if p.1 = c2 then (p.1, v2) else p)).lookup c =
          cells.lookup c := by
      intro cells
      induction cells with
      | nil => rfl
      | cons p t ih =>
        rcases p with ⟨k, b⟩
        by_cases hp : k = c2
        · subst hp
          simp only [List.map_cons]
          rw [lookup_cons_char, lookup_cons_char]
          simp [Ne.symm h, ih]
        · simp only [List.map_cons, if_neg hp]
          rw [lookup_cons_char, lookup_cons_char]
          by_cases hak : c = k
          · simp [hak]
          · simp [hak, ih]
    rw [hmap]
  · rw [if_neg hl]
    rw [lookup_append_assoc]
    cases hlc : r.cells.lookup c with
    | some w => simp
    | none =>
      simp only []
      rw [lookup_cons_char]
      simp [Ne.symm h]

/-- Renaming the overlapping columns does not disturb the lookup of a
column that is neither overlapping nor of suffixed shape. -/
theorem lookup_renameShared (shared : List String) (sfx : String)
    (cells : List (String × Option String)) (c : String)
    (hc : c ∉ shared) (hs : ∀ d : String, c ≠ d ++ sfx) :
    (renameShared shared sfx cells).lookup c = cells.lookup c := by
  induction cells with
  | nil => rfl
  | cons p t ih =>
    rcases p with ⟨k, b⟩
    unfold renameShared
    by_cases hk : k ∈ shared
    · simp only [List.map_cons, if_pos hk]
      rw [lookup_cons_char, lookup_cons_char]
      have hck : c ≠ k := fun hh => hc (hh ▸ hk)
      have hcks : c ≠ k ++ sfx := hs k
      simp only [if_neg hcks, if_neg hck]
      exact ih
    · simp only [List.map_cons, if_neg hk]
      rw [lookup_cons_char, lookup_cons_char]
      by_cases hak : c = k
      · simp [hak]
      · simp only [if_neg hak]
        exact ih

/-- Looking up a listed column in the rebuilt restriction row reads the
underlying row. -/
theorem lookup_map_cols (cols : List String) (f : String → Option String)
    (c : String) (hc : c ∈ cols) :
    (cols.map (fun c2 => (c2, f c2))).lookup c = some (f c) := by
  induction cols with
  | nil => exact absurd hc (List.not_mem_nil c)
  | cons a t ih =>
    simp only [List.map_cons]
    rw [lookup_cons_char]
    by_cases ha : c = a
    · simp [ha]
    · rcases List.mem_cons.mp hc with h1 | h1
      · exact absurd h1 ha
      · simp only [if_neg ha]
        exact ih h1

/-- A string never equals another string extended by a suffix it does not
end with. -/
theorem ne_append_of_not_suffix (c sfx : String) (h : ¬ (sfx.data <:+ c.data)) :
    ∀ d : String, c ≠ d ++ sfx := by
  intro d hc
  apply h
  refine ⟨d.data, ?_⟩
  rw [hc, String.data_append]

/-- The fill loop preserves the column list of the primary table. -/
theorem fillLoop_cols (rcs : List String) :
    ∀ prim conc : MTable, (fillLoop rcs prim conc).1.cols = prim.cols := by
  induction rcs with
  | nil => intro prim conc; rfl
  | cons c0 rest ih =>
    intro prim conc
    show (fillLoop (c0 :: rest) prim conc).1.cols = prim.cols
    unfold fillLoop
    by_cases h1 : c0 ∈ prim.cols
    · by_cases h2 : c0 ∈ conc.cols
      · rw [if_pos h1, if_pos h2, ih]
      · rw [if_pos h1, if_neg h2]
    · rw [if_neg h1]

/-- Fill-only at row level: the loop never changes a non-null cell of the
primary table — positionally, every row keeps each of its non-null
values. -/
theorem fillLoop_get_preserved (rcs : List String) :
    ∀ (prim conc : MTable) (i : Nat) (r : MRow) (c : String) (v : String),
      prim.rows[i]? = some r → r.get c = some v →
      ∃ r2, (fillLoop rcs prim conc).1.rows[i]? = some r2 ∧ r2.get c = some v := by
  induction rcs with
  | nil =>
    intro prim conc i r c v hr hv
    exact ⟨r, hr, hv⟩
  | cons c0 rest ih =>
    intro prim conc i r c v hr hv
    show ∃ r2, (fillLoop (c0 :: rest) prim conc).1.rows[i]? = some r2 ∧ _
    unfold fillLoop
    by_cases h1 : c0 ∈ prim.cols
    · by_cases h2 : c0 ∈ conc.cols
      · rw [if_pos h1, if_pos h2]
        set f := fun r3 : MRow =>
          if r3.get c0 = none ∧ r3.key ∈ conc.rows.map MRow.key then
            r3.setCell c0 (concValueAt conc r3.key c0)
          else r3 with hf
        refine ih _ _ i (f r) c v ?_ ?_
        · show (prim.rows.map f)[i]? = some (f r)
          rw [List.getElem?_map, hr]
          rfl
        · rw [hf]
          by_cases hcond : r.get c0 = none ∧ r.key ∈ conc.rows.map MRow.key

          · simp only [if_pos hcond]
            have hne : c0 ≠ c := by
              intro hcc
              rw [hcc, hv] at hcond
              exact Option.noConfusion hcond.1
            exact (setCell_get_other r c0 c _ hne).trans hv
          · simp only [if_neg hcond]
            exact hv
      · rw [if_pos h1, if_neg h2]
        exact ⟨r, hr, hv⟩
    · rw [if_neg h1]
      exact ⟨r, hr, hv⟩

/-- The left merge preserves the read of a left-side column that is not
shared with the right table and has no suffixed shape. -/
theorem leftMergeRow_get (l t : MTable) (lr : MRow) (c : String) (v : String)
    (hc : c ∉ sharedCols l t) (hsx : ∀ d : String, c ≠ d ++ "_x")
    (hv : lr.get c = some v) : (leftMergeRow l t lr).get c = some v := by
  have hlk : lr.cells.lookup c = some (some v) := by
    unfold MRow.get at hv
    cases hl : lr.cells.lookup c with
    | none => rw [hl] at hv; exact Option.noConfusion hv
    | some w =>
      rw [hl] at hv
      have hw : w = some v := hv
      rw [hw]
  unfold leftMergeRow
  cases hf : findRowByKey t.rows lr.key with
  | some rr =>
    unfold MRow.get
    show ((renameShared (sharedCols l t) "_x" lr.cells ++
        renameShared (sharedCols l t) "_y" rr.cells).lookup c).join = some v
    rw [lookup_append_assoc, lookup_renameShared _ _ _ _ hc hsx, hlk]
    rfl
  | none =>
    unfold MRow.get
    show ((renameShared (sharedCols l t) "_x" lr.cells ++
        t.cols.map (fun c2 =>
          (if c2 ∈ sharedCols l t then c2 ++ "_y" else c2,
            (none : Option String)))).lookup c).join = some v
    rw [lookup_append_assoc, lookup_renameShared _ _ _ _ hc hsx, hlk]
    rfl

/-- The schema restriction preserves the read of every selected non-key
column. -/
theorem restrictRow_get (all_cols : List String) (pk_name : String) (r : MRow)
    (c : String) (hca : c ∈ all_cols) (hcpk : c ≠ pk_name) :
    (restrictRow all_cols pk_name r).get c = r.get c := by
  unfold restrictRow MRow.get
  have hmem : c ∈ all_cols.filter (fun c2 => c2 ≠ pk_name) :=
    List.mem_filter.mpr ⟨hca, by simpa using hcpk⟩
  rw [lookup_map_cols _ _ _ hmem]
  rfl

/-- C6: reconciliation is fill-only.  For any inputs on which
`concat_clean_save_all_match_stats` produces an output, any review-list
column `c` that appears in the canonical output schema (and is not the key
column nor of pandas-suffix shape), and any row of the deduplicated
primary sub-table whose value at `c` is non-null, the reconciled output's
row at the same position carries exactly the primary table's value —
whatever the secondary sub-tables contain. -/
theorem C6_reconciliation_fill_only
    (review_cols all_cols : List String) (pk_name : String)
    (primaryRaw : MTable) (secondaries : List MTable) (out : MTable)
    (hok : concat_clean_save_all_match_stats review_cols all_cols pk_name
        primaryRaw secondaries = Except.ok out)
    (c : String) (_hc : c ∈ review_cols) (hca : c ∈ all_cols) (hcpk : c ≠ pk_name)
    (hsx : ¬ (("_x" : String).data <:+ c.data))
    (hsy : ¬ (("_y" : String).data <:+ c.data))
    (i : Nat) (r : MRow) (v : String)
    (hr : (primaryRaw.dedupKey).rows[i]? = some r)
    (hv : r.get c = some v) :
    ∃ orow, out.rows[i]? = some orow ∧ orow.get c = some v := by
  have hs_x : ∀ d : String, c ≠ d ++ "_x" := ne_append_of_not_suffix c "_x" hsx
  have hs_y : ∀ d : String, c ≠ d ++ "_y" := ne_append_of_not_suffix c "_y" hsy
  cases secondaries with
  | nil => simp [concat_clean_save_all_match_stats] at hok
  | cons s0 rest =>
    simp only [concat_clean_save_all_match_stats] at hok
    obtain ⟨r2, hr2, hv2⟩ := fillLoop_get_preserved review_cols primaryRaw.dedupKey
      ((rest.foldl (fun acc d => outerMerge acc d) s0).dedupKey) i r c v hr hv
    set pc := fillLoop review_cols primaryRaw.dedupKey
      ((rest.foldl (fun acc d => outerMerge acc d) s0).dedupKey) with hpcdef
    unfold restrictCols at hok
    split_ifs at hok with hall
    · injection hok with hout
      subst hout
      have hcm : c ∈ (leftMerge pc.1 pc.2).cols := by
        have h2 := List.all_eq_true.mp hall c hca
        simp only [Bool.or_eq_true, decide_eq_true_eq] at h2
        exact h2.resolve_left hcpk
      have hcsh : c ∉ sharedCols pc.1 pc.2 := by
        intro hmem
        have h3 := hcm
        simp only [leftMerge, suffixCols] at h3
        rcases List.mem_append.mp h3 with h1 | h1
        · rcases List.mem_map.mp h1 with ⟨d, hd, hdc⟩
          by_cases hds : d ∈ sharedCols pc.1 pc.2
          · rw [if_pos hds] at hdc
            exact hs_x d hdc.symm
          · rw [if_neg hds] at hdc
            exact hds (hdc ▸ hmem)
        · rcases List.mem_map.mp h1 with ⟨d, hd, hdc⟩
          by_cases hds : d ∈ sharedCols pc.1 pc.2
          · rw [if_pos hds] at hdc
            exact hs_y d hdc.symm
          · rw [if_neg hds] at hdc
            exact hds (hdc ▸ hmem)
      have hm : (leftMerge pc.1 pc.2).rows[i]? = some (leftMergeRow pc.1 pc.2 r2) := by
        show (pc.1.rows.map (leftMergeRow pc.1 pc.2))[i]? = _
        rw [List.getElem?_map, hr2]
        rfl
      have hmv : (leftMergeRow pc.1 pc.2 r2).get c = some v :=
        leftMergeRow_get pc.1 pc.2 r2 c v hcsh hs_x hv2
      refine ⟨restrictRow all_cols pk_name (leftMergeRow pc.1 pc.2 r2), ?_, ?_⟩
      · show ((leftMerge pc.1 pc.2).rows.map (restrictRow all_cols pk_name))[i]? = _
        rw [List.getElem?_map, hm]
        rfl
      · rw [restrictRow_get all_cols pk_name _ c hca hcpk]
        exact hmv

/-- Witness for C6 on a concrete run: primary sub-table with one row
`{player_match: "p1_m1", passes: "5"}`, one secondary sub-table carrying
`passes: "10"` for the same key, review column `passes` — the reconciled
output keeps the primary's `"5"`. -/
theorem C6_reconciliation_fill_only_witness :
    ∃ orow,
      (MTable.mk ["passes"] [MRow.mk (some "p1_m1") [("passes", some "5")]]).rows[0]?
        = some orow ∧ orow.get "passes" = some "5" :=
  C6_reconciliation_fill_only ["passes"] ["passes"] "player_match"
    (MTable.mk ["passes"] [MRow.mk (some "p1_m1") [("passes", some "5")]])
    [MTable.mk ["passes"] [MRow.mk (some "p1_m1") [("passes", some "10")]]]
    (MTable.mk ["passes"] [MRow.mk (some "p1_m1") [("passes", some "5")]])
    (by rfl) "passes" (by decide) (by decide) (by decide) (by decide) (by decide)
    0 (MRow.mk (some "p1_m1") [("passes", some "5")]) "5" (by rfl) (by rfl)

end ReconcilerLemmas

end SoccerDB
